import Mathlib

/-!
Shallow embedding of `src/bitset.c`: a fixed-capacity bit array over 64-bit
words, with bounds-checked set/clear/test and two enumeration algorithms
(a stateful cursor `bitset_iter_next` and a stateless scan
`bitset_next_set_bit`).

Modelling conventions:
* a C `uint64_t` word is a `Nat` kept below `2 ^ 64` (the one place the C
  code relies on 64-bit overflow, `mask <<= 1`, is modelled as
  `(mask <<< 1) % 2 ^ 64`);
* the `chunks` pointer of the struct is modelled as the list of allocated
  words, so `nchunks` is `chunks.length`;
* a chunk pointer held by the scan code is modelled as a word offset
  (an `Int`, since `bitset_iter_begin` sets it to `chunks - 1`);
* dereferencing the storage goes through `wordRead`, which yields `none`
  when the offset is outside the allocation: that is a C out-of-bounds
  read (undefined behavior), reported as `ScanResult.oobRead` /
  `CResult.ub`;
* C `int` indices are `Int` where the sign matters (`bitset_set` /
  `bitset_clear` / `bitset_get` stay faithful to `index_check`, which only
  tests `index >= capacity`); the scan entry points take the start index
  as a `Nat`, matching the nonnegative starts the claims quantify over;
* the C loops terminate on every input, so they are embedded with an
  explicit fuel argument large enough to never run out (`outOfFuel` is a
  distinct result constructor, so no real outcome is conflated with it).
-/

/-- One bitset: `capacity` addressable bits packed into 64-bit words.
The `chunks` list models the `nchunks`-word allocation of `bitset_init`. -/
structure BitSet where
  capacity : Nat
  chunks : List Nat
deriving DecidableEq

/-- Number of words allocated by `bitset_init`:
`capacity / 64`, plus one when `capacity % 64` is nonzero. -/
def nchunksOf (capacity : Nat) : Nat :=
  capacity / 64 + (if capacity % 64 ≠ 0 then 1 else 0)

/-- `bitset_init`: allocate `nchunks` words and zero them (`bitset_reset`). -/
def bitset_init (capacity : Nat) : BitSet :=
  ⟨capacity, List.replicate (nchunksOf capacity) 0⟩

/-- `bitset_new`: allocate and initialize (allocation success is assumed). -/
def bitset_new (capacity : Nat) : BitSet :=
  bitset_init capacity

/-- `bitset_reset`: `memset` all `nchunks` words to zero. -/
def bitset_reset (bs : BitSet) : BitSet :=
  ⟨bs.capacity, List.replicate bs.chunks.length 0⟩

/-- Outcome of a bounds-checked accessor.  `indexError` is the
`index_check` failure path (`printf` + `exit(1)`); `ub` marks undefined
behavior the C code reaches without taking that path (a shift by a
negative amount, or a storage access outside the allocated words). -/
inductive CResult (α : Type) where
  | ok : α → CResult α
  | indexError : CResult α
  | ub : CResult α
deriving DecidableEq

/-- Dereference of a chunk pointer positioned at word offset `o`:
`none` when the offset is outside the allocated words (a C out-of-bounds
read). -/
def wordRead (chunks : List Nat) (o : Int) : Option Nat :=
  if 0 ≤ o then chunks.get? o.toNat else none

/-- `bitset_set`: `index_check` (which only tests `index >= capacity`),
then `chunks[index / 64] |= 1ull << (index % 64)`.  C `/` and `%` on
`int` truncate toward zero, hence `Int.tdiv` / `Int.tmod`. -/
def bitset_set (bs : BitSet) (index : Int) : CResult BitSet :=
  if (bs.capacity : Int) ≤ index then .indexError
  else if index.tmod 64 < 0 then .ub
  else
    let bitmask : Nat := 1 <<< (index.tmod 64).toNat
    let q : Int := index.tdiv 64
    if 0 ≤ q ∧ q.toNat < bs.chunks.length then
      .ok ⟨bs.capacity, bs.chunks.set q.toNat (bs.chunks.getD q.toNat 0 ||| bitmask)⟩
    else .ub

/-- `bitset_clear`: `index_check`, then
`chunks[index / 64] &= ~(1ull << (index % 64))`; the 64-bit complement of
the mask is `(2 ^ 64 - 1) ^^^ bitmask`. -/
def bitset_clear (bs : BitSet) (index : Int) : CResult BitSet :=
  if (bs.capacity : Int) ≤ index then .indexError
  else if index.tmod 64 < 0 then .ub
  else
    let bitmask : Nat := 1 <<< (index.tmod 64).toNat
    let q : Int := index.tdiv 64
    if 0 ≤ q ∧ q.toNat < bs.chunks.length then
      .ok ⟨bs.capacity, bs.chunks.set q.toNat (bs.chunks.getD q.toNat 0 &&& ((2 ^ 64 - 1) ^^^ bitmask))⟩
    else .ub

/-- `bitset_get`: `index_check`, then report whether
`chunks[index / 64] & (1ull << (index % 64))` is nonzero. -/
def bitset_get (bs : BitSet) (index : Int) : CResult Bool :=
  if (bs.capacity : Int) ≤ index then .indexError
  else if index.tmod 64 < 0 then .ub
  else
    let bitmask : Nat := 1 <<< (index.tmod 64).toNat
    let q : Int := index.tdiv 64
    if 0 ≤ q ∧ q.toNat < bs.chunks.length then
      .ok (bs.chunks.getD q.toNat 0 &&& bitmask != 0)
    else .ub

/-- Result of one scan call (`bitset_next_set_bit` or `bitset_iter_next`):
the C `int` return value is `found i` for a hit and `exhausted` for `-1`;
`oobRead` marks a dereference outside the allocated words (undefined
behavior); `outOfFuel` is the embedding's fuel bound, never reached by
the wrappers below. -/
inductive ScanResult where
  | found : Int → ScanResult
  | exhausted : ScanResult
  | oobRead : ScanResult
  | outOfFuel : ScanResult
deriving DecidableEq

/-- Outcome of the shared zero-word skip loop
`while (!*chunk) { ++chunk; index += 64; if (index >= capacity) return -1; }`:
`stop o i` leaves the loop at a nonzero word, `exhausted` is the
`return -1`, `ub` is a dereference outside the allocated words
(both carry the chunk offset and index at that point). -/
inductive SkipOutcome where
  | stop : Int → Int → SkipOutcome
  | exhausted : Int → Int → SkipOutcome
  | ub : Int → Int → SkipOutcome
  | outOfFuel : SkipOutcome
deriving DecidableEq

/-- The zero-word skip loop shared by both scan algorithms: read the word
at offset `o`; a nonzero word stops the loop; otherwise advance a whole
word and return `-1` once `index` reaches `capacity`. -/
def skipZeros (chunks : List Nat) (capacity : Nat) : Nat → Int → Int → SkipOutcome
  | 0, _, _ => .outOfFuel
  | fuel + 1, o, index =>
    match wordRead chunks o with
    | none => .ub o index
    | some w =>
      if w = 0 then
        if (capacity : Int) ≤ index + 64 then .exhausted (o + 1) (index + 64)
        else skipZeros chunks capacity fuel (o + 1) (index + 64)
      else .stop o index

/-- Loop body of `bitset_next_set_bit`: while `index < capacity`, test the
current bit, then advance the mask; on mask overflow move to the next
word and run the skip loop. -/
def nextBitLoop (chunks : List Nat) (capacity : Nat) : Nat → Int → Nat → Int → ScanResult
  | 0, _, _, _ => .outOfFuel
  | fuel + 1, o, mask, index =>
    if index < (capacity : Int) then
      match wordRead chunks o with
      | none => .oobRead
      | some w =>
        if mask &&& w ≠ 0 then .found index
        else
          let m : Nat := (mask <<< 1) % 2 ^ 64
          if m = 0 then
            match skipZeros chunks capacity fuel (o + 1) (index + 1) with
            | .stop o2 i2 => nextBitLoop chunks capacity fuel o2 1 i2
            | .exhausted _ _ => .exhausted
            | .ub _ _ => .oobRead
            | .outOfFuel => .outOfFuel
          else nextBitLoop chunks capacity fuel o m (index + 1)
    else .exhausted

/-- Fuel that upper-bounds every iteration the C scan loops can make. -/
def scanFuel (chunks : List Nat) (capacity : Nat) : Nat :=
  64 * chunks.length + capacity + 66

/-- `bitset_next_set_bit`: position the chunk pointer at `index >> 6` and
the mask at bit `index & 0x3F`, then run the scan loop. -/
def bitset_next_set_bit (bs : BitSet) (index : Nat) : ScanResult :=
  nextBitLoop bs.chunks bs.capacity (scanFuel bs.chunks bs.capacity)
    ((index >>> 6 : Nat) : Int) (1 <<< (index &&& 0x3F)) (index : Int)

/-- Cursor state of `BitSetIterator`: the chunk pointer (as a word offset
into the bitset's storage), the single-bit mask, the last index, and the
capacity snapshot. -/
structure BitSetIterator where
  chunk : Int
  mask : Nat
  index : Int
  capacity : Nat
deriving DecidableEq

/-- `bitset_iter_begin`: chunk pointer one before the storage, zero mask,
index `-1`, capacity copied from the bitset. -/
def bitset_iter_begin (bs : BitSet) : BitSetIterator :=
  ⟨-1, 0, -1, bs.capacity⟩

/-- Loop body of `bitset_iter_next`: while `index < capacity`, advance the
mask and index; on mask overflow move to the next word and run the skip
loop; then test the current bit. -/
def iterNextLoop (chunks : List Nat) : Nat → BitSetIterator → ScanResult × BitSetIterator
  | 0, s => (.outOfFuel, s)
  | fuel + 1, s =>
    if s.index < (s.capacity : Int) then
      let m : Nat := (s.mask <<< 1) % 2 ^ 64
      let i : Int := s.index + 1
      if m = 0 then
        match skipZeros chunks s.capacity fuel (s.chunk + 1) i with
        | .stop o2 i2 =>
          let s2 : BitSetIterator := ⟨o2, 1, i2, s.capacity⟩
          match wordRead chunks s2.chunk with
          | none => (.oobRead, s2)
          | some w =>
            if s2.mask &&& w ≠ 0 then (.found s2.index, s2)
            else iterNextLoop chunks fuel s2
        | .exhausted o2 i2 => (.exhausted, ⟨o2, 1, i2, s.capacity⟩)
        | .ub o2 i2 => (.oobRead, ⟨o2, 1, i2, s.capacity⟩)
        | .outOfFuel => (.outOfFuel, s)
      else
        let s1 : BitSetIterator := ⟨s.chunk, m, i, s.capacity⟩
        match wordRead chunks s1.chunk with
        | none => (.oobRead, s1)
        | some w =>
          if s1.mask &&& w ≠ 0 then (.found s1.index, s1)
          else iterNextLoop chunks fuel s1
    else (.exhausted, s)

/-- `bitset_iter_next`: run the cursor loop with enough fuel for every
iteration the C loop can make. -/
def bitset_iter_next (chunks : List Nat) (s : BitSetIterator) : ScanResult × BitSetIterator :=
  iterNextLoop chunks (scanFuel chunks s.capacity) s

/-- Repeated cursor advance, as `bitset_enumerate` performs it: collect
`found` results until the first non-`found` result (which is kept last),
up to `n` calls. -/
def iterTrace (chunks : List Nat) : Nat → BitSetIterator → List ScanResult
  | 0, _ => []
  | n + 1, s =>
    match bitset_iter_next chunks s with
    | (.found i, s') => .found i :: iterTrace chunks n s'
    | (r, _) => [r]

/-- Repeated stateless scan, as `bitset_enumerate2` performs it: call
`bitset_next_set_bit` restarting at the previous result plus one,
collecting results until the first non-`found` result, up to `n` calls. -/
def scanTrace (bs : BitSet) : Nat → Nat → List ScanResult
  | 0, _ => []
  | n + 1, start =>
    match bitset_next_set_bit bs start with
    | .found i => .found i :: scanTrace bs n (i.toNat + 1)
    | r => [r]

/-- The specification-side enumeration: the ascending list of indices
`i` in `[0, capacity)` whose stored bit is set. -/
def specSetBits (bs : BitSet) : List Nat :=
  (List.range bs.capacity).filter fun i => (bs.chunks.getD (i / 64) 0).testBit (i % 64)

/-- States reachable from construction by bounds-respecting mutations:
`bitset_init`, then any sequence of `bitset_set` / `bitset_clear` at
valid indices and `bitset_reset`. -/
inductive Reachable : BitSet → Prop where
  | init : ∀ capacity : Nat, Reachable (bitset_init capacity)
  | set : ∀ (bs bs' : BitSet) (n : Nat), Reachable bs → n < bs.capacity →
      bitset_set bs (n : Int) = .ok bs' → Reachable bs'
  | clear : ∀ (bs bs' : BitSet) (n : Nat), Reachable bs → n < bs.capacity →
      bitset_clear bs (n : Int) = .ok bs' → Reachable bs'
  | reset : ∀ bs : BitSet, Reachable bs → Reachable (bitset_reset bs)

theorem tmod64_natCast (n : Nat) : (n : Int).tmod 64 = ((n % 64 : Nat) : Int) := rfl

theorem tdiv64_natCast (n : Nat) : (n : Int).tdiv 64 = ((n / 64 : Nat) : Int) := rfl

theorem and_mask_bne (w r : Nat) : (w &&& 1 <<< r != 0) = w.testBit r := by
  rw [Nat.one_shiftLeft, Nat.and_two_pow]
  cases h : w.testBit r <;> simp [h, Nat.pos_iff_ne_zero.mp (Nat.two_pow_pos r)]

theorem bitset_set_natCast (bs : BitSet) (n : Nat) (hn : n < bs.capacity)
    (hq : n / 64 < bs.chunks.length) :
    bitset_set bs (n : Int) =
      .ok ⟨bs.capacity, bs.chunks.set (n / 64) (bs.chunks.getD (n / 64) 0 ||| 1 <<< (n % 64))⟩ := by
  have h1 : ¬ ((bs.capacity : Int) ≤ (n : Int)) := by exact_mod_cast Nat.not_le.mpr hn
  unfold bitset_set
  rw [tmod64_natCast, tdiv64_natCast, if_neg h1]
  simp only [Int.toNat_ofNat]
  rw [if_neg (by omega), if_pos ⟨by omega, hq⟩]

theorem bitset_clear_natCast (bs : BitSet) (n : Nat) (hn : n < bs.capacity)
    (hq : n / 64 < bs.chunks.length) :
    bitset_clear bs (n : Int) =
      .ok ⟨bs.capacity, bs.chunks.set (n / 64)
        (bs.chunks.getD (n / 64) 0 &&& ((2 ^ 64 - 1) ^^^ 1 <<< (n % 64)))⟩ := by
  have h1 : ¬ ((bs.capacity : Int) ≤ (n : Int)) := by exact_mod_cast Nat.not_le.mpr hn
  unfold bitset_clear
  rw [tmod64_natCast, tdiv64_natCast, if_neg h1]
  simp only [Int.toNat_ofNat]
  rw [if_neg (by omega), if_pos ⟨by omega, hq⟩]

theorem bitset_get_natCast (bs : BitSet) (n : Nat) (hn : n < bs.capacity)
    (hq : n / 64 < bs.chunks.length) :
    bitset_get bs (n : Int) = .ok ((bs.chunks.getD (n / 64) 0).testBit (n % 64)) := by
  have h1 : ¬ ((bs.capacity : Int) ≤ (n : Int)) := by exact_mod_cast Nat.not_le.mpr hn
  unfold bitset_get
  rw [tmod64_natCast, tdiv64_natCast, if_neg h1]
  simp only [Int.toNat_ofNat]
  rw [if_neg (by omega), if_pos ⟨by omega, hq⟩, and_mask_bne]

theorem bitset_set_natCast_oob (bs : BitSet) (n : Nat) (hn : n < bs.capacity)
    (hq : ¬ n / 64 < bs.chunks.length) :
    bitset_set bs (n : Int) = .ub := by
  have h1 : ¬ ((bs.capacity : Int) ≤ (n : Int)) := by exact_mod_cast Nat.not_le.mpr hn
  unfold bitset_set
  rw [tmod64_natCast, tdiv64_natCast, if_neg h1]
  simp only [Int.toNat_ofNat]
  rw [if_neg (by omega), if_neg (by intro h; exact hq h.2)]

theorem bitset_clear_natCast_oob (bs : BitSet) (n : Nat) (hn : n < bs.capacity)
    (hq : ¬ n / 64 < bs.chunks.length) :
    bitset_clear bs (n : Int) = .ub := by
  have h1 : ¬ ((bs.capacity : Int) ≤ (n : Int)) := by exact_mod_cast Nat.not_le.mpr hn
  unfold bitset_clear
  rw [tmod64_natCast, tdiv64_natCast, if_neg h1]
  simp only [Int.toNat_ofNat]
  rw [if_neg (by omega), if_neg (by intro h; exact hq h.2)]

theorem div64_lt_nchunksOf (capacity n : Nat) (h : n < capacity) :
    n / 64 < nchunksOf capacity := by
  unfold nchunksOf
  split <;> omega

theorem getD_set_self (l : List Nat) (k : Nat) (x : Nat) (h : k < l.length) :
    (l.set k x).getD k 0 = x := by
  simp [List.getElem?_set_self h]

theorem getD_set_ne (l : List Nat) (k k' : Nat) (x : Nat) (h : k ≠ k') :
    (l.set k x).getD k' 0 = l.getD k' 0 := by
  simp [List.getElem?_set_ne h]

theorem testBit_or_mask_self (w r : Nat) : (w ||| 1 <<< r).testBit r = true := by
  simp [Nat.one_shiftLeft, Nat.testBit_two_pow_self]

theorem testBit_or_mask_ne (w r b : Nat) (h : b ≠ r) :
    (w ||| 1 <<< r).testBit b = w.testBit b := by
  simp [Nat.one_shiftLeft, Nat.testBit_two_pow_of_ne (Ne.symm h)]

theorem testBit_clear_mask_self (w r : Nat) (hr : r < 64) :
    (w &&& ((2 ^ 64 - 1) ^^^ 1 <<< r)).testBit r = false := by
  rw [Nat.testBit_and, Nat.testBit_xor, Nat.testBit_two_pow_sub_one, Nat.one_shiftLeft,
    Nat.testBit_two_pow_self]
  simp [hr]

theorem testBit_clear_mask_ne (w r b : Nat) (hb : b < 64) (h : b ≠ r) :
    (w &&& ((2 ^ 64 - 1) ^^^ 1 <<< r)).testBit b = w.testBit b := by
  rw [Nat.testBit_and, Nat.testBit_xor, Nat.testBit_two_pow_sub_one, Nat.one_shiftLeft,
    Nat.testBit_two_pow_of_ne (Ne.symm h)]
  simp [hb]

/-- Claim C7: for every well-formed bitset and valid index `i`,
`bitset_set i` succeeds; afterwards `bitset_get i` is true and every other
valid index reads unchanged; a subsequent `bitset_clear i` succeeds, after
which `bitset_get i` is false and every other valid index still reads as
in the original bitset. -/
theorem c7_set_then_clear_frame (bs : BitSet)
    (hwf : bs.chunks.length = nchunksOf bs.capacity)
    (i : Int) (h0 : 0 ≤ i) (hi : i < (bs.capacity : Int)) :
    ∃ bs1 bs2,
      bitset_set bs i = .ok bs1 ∧
      bitset_get bs1 i = .ok true ∧
      (∀ j : Int, 0 ≤ j → j < (bs.capacity : Int) → j ≠ i →
        bitset_get bs1 j = bitset_get bs j) ∧
      bitset_clear bs1 i = .ok bs2 ∧
      bitset_get bs2 i = .ok false ∧
      (∀ j : Int, 0 ≤ j → j < (bs.capacity : Int) → j ≠ i →
        bitset_get bs2 j = bitset_get bs j) := by
  obtain ⟨n, rfl⟩ : ∃ k : Nat, i = (k : Int) :=
    ⟨i.toNat, (Int.toNat_of_nonneg h0).symm⟩
  have hn : n < bs.capacity := by exact_mod_cast hi
  have hq : n / 64 < bs.chunks.length := hwf ▸ div64_lt_nchunksOf _ _ hn
  obtain ⟨W, hW⟩ : ∃ w : Nat, w = bs.chunks.getD (n / 64) 0 ||| 1 <<< (n % 64) := ⟨_, rfl⟩
  obtain ⟨l1, hl1⟩ : ∃ l : List Nat, l = bs.chunks.set (n / 64) W := ⟨_, rfl⟩
  obtain ⟨l2, hl2⟩ : ∃ l : List Nat,
      l = l1.set (n / 64) (l1.getD (n / 64) 0 &&& ((2 ^ 64 - 1) ^^^ 1 <<< (n % 64))) := ⟨_, rfl⟩
  have h1len : n / 64 < l1.length := by rw [hl1]; simpa using hq
  have h2len : n / 64 < l2.length := by rw [hl2]; simpa using h1len
  refine ⟨⟨bs.capacity, l1⟩, ⟨bs.capacity, l2⟩, ?_, ?_, ?_, ?_, ?_, ?_⟩
  · rw [hl1, hW]; exact bitset_set_natCast bs n hn hq
  · rw [bitset_get_natCast ⟨bs.capacity, l1⟩ n hn h1len]
    rw [hl1, getD_set_self _ _ _ hq, hW, testBit_or_mask_self]
  · intro j hj0 hjlt hjne
    obtain ⟨jn, rfl⟩ : ∃ k : Nat, j = (k : Int) :=
      ⟨j.toNat, (Int.toNat_of_nonneg hj0).symm⟩
    have hjn : jn < bs.capacity := by exact_mod_cast hjlt
    have hjq : jn / 64 < bs.chunks.length := hwf ▸ div64_lt_nchunksOf _ _ hjn
    have hne : jn ≠ n := fun h => hjne (by exact_mod_cast h)
    have hj1len : jn / 64 < l1.length := by rw [hl1]; simpa using hjq
    rw [bitset_get_natCast ⟨bs.capacity, l1⟩ jn hjn hj1len, bitset_get_natCast bs jn hjn hjq]
    by_cases hqq : jn / 64 = n / 64
    · rw [hqq, hl1, getD_set_self _ _ _ hq, hW, testBit_or_mask_ne _ _ _ (by omega)]
    · rw [hl1, getD_set_ne _ _ _ _ (fun h => hqq h.symm)]
  · rw [hl2]; exact bitset_clear_natCast ⟨bs.capacity, l1⟩ n hn h1len
  · rw [bitset_get_natCast ⟨bs.capacity, l2⟩ n hn h2len]
    rw [hl2, getD_set_self _ _ _ h1len, hl1, getD_set_self _ _ _ hq, hW,
      testBit_clear_mask_self _ _ (by omega)]
  · intro j hj0 hjlt hjne
    obtain ⟨jn, rfl⟩ : ∃ k : Nat, j = (k : Int) :=
      ⟨j.toNat, (Int.toNat_of_nonneg hj0).symm⟩
    have hjn : jn < bs.capacity := by exact_mod_cast hjlt
    have hjq : jn / 64 < bs.chunks.length := hwf ▸ div64_lt_nchunksOf _ _ hjn
    have hne : jn ≠ n := fun h => hjne (by exact_mod_cast h)
    have hj2len : jn / 64 < l2.length := by
      rw [hl2, List.length_set, hl1, List.length_set]; exact hjq
    rw [bitset_get_natCast ⟨bs.capacity, l2⟩ jn hjn hj2len, bitset_get_natCast bs jn hjn hjq]
    by_cases hqq : jn / 64 = n / 64
    · rw [hqq, hl2, getD_set_self _ _ _ h1len, hl1, getD_set_self _ _ _ hq, hW,
        testBit_clear_mask_ne _ _ _ (by omega) (by omega), testBit_or_mask_ne _ _ _ (by omega)]
    · rw [hl2, getD_set_ne _ _ _ _ (fun h => hqq h.symm), hl1,
        getD_set_ne _ _ _ _ (fun h => hqq h.symm)]

theorem getD_replicate_zero (k n : Nat) : (List.replicate k 0).getD n 0 = 0 := by
  rw [List.getD_eq_getElem?_getD, List.getElem?_replicate]
  split <;> rfl

theorem bitset_set_ok_inv (bs bs' : BitSet) (n : Nat) (hn : n < bs.capacity)
    (h : bitset_set bs (n : Int) = .ok bs') :
    n / 64 < bs.chunks.length ∧
    bs' = ⟨bs.capacity, bs.chunks.set (n / 64) (bs.chunks.getD (n / 64) 0 ||| 1 <<< (n % 64))⟩ := by
  by_cases hq : n / 64 < bs.chunks.length
  · rw [bitset_set_natCast bs n hn hq] at h
    injection h with h'
    exact ⟨hq, h'.symm⟩
  · rw [bitset_set_natCast_oob bs n hn hq] at h
    cases h

theorem bitset_clear_ok_inv (bs bs' : BitSet) (n : Nat) (hn : n < bs.capacity)
    (h : bitset_clear bs (n : Int) = .ok bs') :
    n / 64 < bs.chunks.length ∧
    bs' = ⟨bs.capacity, bs.chunks.set (n / 64)
      (bs.chunks.getD (n / 64) 0 &&& ((2 ^ 64 - 1) ^^^ 1 <<< (n % 64)))⟩ := by
  by_cases hq : n / 64 < bs.chunks.length
  · rw [bitset_clear_natCast bs n hn hq] at h
    injection h with h'
    exact ⟨hq, h'.symm⟩
  · rw [bitset_clear_natCast_oob bs n hn hq] at h
    cases h

/-- Claim C8: in every bitset reachable from construction by
bounds-respecting `bitset_set` / `bitset_clear` / `bitset_reset` calls,
every padding bit (a bit position `64 * o + b >= capacity` inside the
allocated words) is zero. -/
theorem c8_reachable_padding_bits_zero (bs : BitSet) (h : Reachable bs) :
    ∀ o : Nat, o < bs.chunks.length → ∀ b : Nat, b < 64 →
      bs.capacity ≤ 64 * o + b → (bs.chunks.getD o 0).testBit b = false := by
  induction h with
  | init c =>
    intro o ho b hb hcap
    simp only [bitset_init, getD_replicate_zero, Nat.zero_testBit]
  | set bs bs' n hr hn hok ih =>
    obtain ⟨hq, rfl⟩ := bitset_set_ok_inv bs bs' n hn hok
    intro o ho b hb hcap
    simp only [List.length_set] at ho
    by_cases hoq : o = n / 64
    · subst hoq
      have hcap2 : bs.capacity ≤ 64 * (n / 64) + b := hcap
      rw [getD_set_self _ _ _ hq, testBit_or_mask_ne _ _ _ (by omega)]
      exact ih _ hq b hb hcap2
    · rw [getD_set_ne _ _ _ _ (fun e => hoq e.symm)]
      exact ih o ho b hb hcap
  | clear bs bs' n hr hn hok ih =>
    obtain ⟨hq, rfl⟩ := bitset_clear_ok_inv bs bs' n hn hok
    intro o ho b hb hcap
    simp only [List.length_set] at ho
    by_cases hoq : o = n / 64
    · subst hoq
      have hcap2 : bs.capacity ≤ 64 * (n / 64) + b := hcap
      rw [getD_set_self _ _ _ hq, Nat.testBit_and, ih _ hq b hb hcap2, Bool.false_and]
    · rw [getD_set_ne _ _ _ _ (fun e => hoq e.symm)]
      exact ih o ho b hb hcap
  | reset bs hr ih =>
    intro o ho b hb hcap
    simp only [bitset_reset, getD_replicate_zero, Nat.zero_testBit]

theorem bitset_get_natCast_ok (bs : BitSet) (n : Nat) (hn : n < bs.capacity)
    (hq : n / 64 < bs.chunks.length) : ∃ v, bitset_get bs (n : Int) = .ok v :=
  ⟨_, bitset_get_natCast bs n hn hq⟩

/-- Claim C10: for every well-formed bitset and valid index `i`, the word
offset `i / 64` is below the allocated word count `nchunksOf capacity`,
and `bitset_set` / `bitset_clear` / `bitset_get` all succeed (their
undefined-behavior branch is unreachable). -/
theorem c10_valid_index_storage_access_in_bounds (bs : BitSet)
    (hwf : bs.chunks.length = nchunksOf bs.capacity) (i : Nat) (hi : i < bs.capacity) :
    i / 64 < nchunksOf bs.capacity ∧
    (∃ bs', bitset_set bs (i : Int) = .ok bs') ∧
    (∃ bs', bitset_clear bs (i : Int) = .ok bs') ∧
    (∃ v, bitset_get bs (i : Int) = .ok v) := by
  have hq : i / 64 < bs.chunks.length := hwf ▸ div64_lt_nchunksOf _ _ hi
  exact ⟨hwf ▸ hq, ⟨_, bitset_set_natCast bs i hi hq⟩, ⟨_, bitset_clear_natCast bs i hi hq⟩,
    ⟨_, bitset_get_natCast bs i hi hq⟩⟩

/-- Claim C4: for every bitset and every start index at or beyond the
capacity, `bitset_next_set_bit` returns `-1` (`exhausted`) and performs no
read of the word storage (an out-of-bounds read would surface as
`oobRead`). -/
theorem c4_next_set_bit_at_or_beyond_capacity (bs : BitSet) (start : Nat)
    (h : bs.capacity ≤ start) : bitset_next_set_bit bs start = .exhausted := by
  have hne : ¬ ((start : Int) < (bs.capacity : Int)) := by exact_mod_cast Nat.not_lt.mpr h
  unfold bitset_next_set_bit scanFuel
  rw [show 64 * bs.chunks.length + bs.capacity + 66
      = (64 * bs.chunks.length + bs.capacity + 65) + 1 by omega]
  rw [nextBitLoop]
  rw [if_neg hne]

/-- Witness for C4 at capacity 10, start 10. -/
theorem c4_next_set_bit_at_or_beyond_capacity_witness :
    bitset_next_set_bit (bitset_init 10) 10 = .exhausted :=
  c4_next_set_bit_at_or_beyond_capacity (bitset_init 10) 10 (by decide)

/-- Witness for C7 at capacity 3, index 1. -/
theorem c7_set_then_clear_frame_witness :
    ∃ bs1 bs2,
      bitset_set (bitset_init 3) 1 = .ok bs1 ∧
      bitset_get bs1 1 = .ok true ∧
      (∀ j : Int, 0 ≤ j → j < ((bitset_init 3).capacity : Int) → j ≠ 1 →
        bitset_get bs1 j = bitset_get (bitset_init 3) j) ∧
      bitset_clear bs1 1 = .ok bs2 ∧
      bitset_get bs2 1 = .ok false ∧
      (∀ j : Int, 0 ≤ j → j < ((bitset_init 3).capacity : Int) → j ≠ 1 →
        bitset_get bs2 j = bitset_get (bitset_init 3) j) :=
  c7_set_then_clear_frame (bitset_init 3) (by decide) 1 (by decide) (by decide)

/-- Witness for C8: capacity 5 has one allocated word; padding bit 17 of
word 0 is zero in the freshly constructed bitset. -/
theorem c8_reachable_padding_bits_zero_witness :
    ((bitset_init 5).chunks.getD 0 0).testBit 17 = false :=
  c8_reachable_padding_bits_zero (bitset_init 5) (Reachable.init 5) 0 (by decide) 17
    (by decide) (by decide)

/-- Witness for C10 at capacity 5, index 2. -/
theorem c10_valid_index_storage_access_in_bounds_witness :
    2 / 64 < nchunksOf (bitset_init 5).capacity ∧
    (∃ bs', bitset_set (bitset_init 5) ((2 : Nat) : Int) = .ok bs') ∧
    (∃ bs', bitset_clear (bitset_init 5) ((2 : Nat) : Int) = .ok bs') ∧
    (∃ v, bitset_get (bitset_init 5) ((2 : Nat) : Int) = .ok v) :=
  c10_valid_index_storage_access_in_bounds (bitset_init 5) (by decide) 2 (by decide)

/-- Claim C1, settled against the code: the claim asserts every repeated
enumeration ends with "none" after producing exactly the set indices, but
on the bitset with capacity 64 and exactly bit 63 set (the lone allocated
word is `2 ^ 63`), the cursor produces 63 and then, instead of returning
"none", dereferences the word one past the allocated storage (an
out-of-bounds read, undefined behavior in the C source). -/
theorem c1_cursor_enumeration_reads_out_of_bounds :
    specSetBits ⟨64, [2 ^ 63]⟩ = [63] ∧
    iterTrace [2 ^ 63] 70 (bitset_iter_begin ⟨64, [2 ^ 63]⟩) = [.found 63, .oobRead] := by
  decide

/-- Claim C2, settled against the code: the claim asserts a negative index
is rejected by the bounds check like an index at or above capacity, but
`index_check` only tests `index >= capacity`, so index `-1` on a
capacity-10 bitset passes the check and the code reaches undefined
behavior (`1ull << (-1 % 64)`) instead of the `indexError` path. -/
theorem c2_negative_index_not_rejected :
    bitset_set ⟨10, [0]⟩ (-1) = .ub ∧
    bitset_clear ⟨10, [0]⟩ (-1) = .ub ∧
    bitset_get ⟨10, [0]⟩ (-1) = .ub := by
  decide

/-- Claim C3, settled against the code: the claim asserts the scan never
reads a word outside the allocated `word_count` words, but on the
well-formed capacity-64 bitset with bit 62 set (one allocated word,
`nchunksOf 64 = 1`), `bitset_next_set_bit` from 63 rolls its mask over at
index 64 and dereferences word offset 1, outside the allocation. -/
theorem c3_scan_reads_word_beyond_allocation :
    nchunksOf 64 = 1 ∧
    specSetBits ⟨64, [2 ^ 62]⟩ = [62] ∧
    bitset_next_set_bit ⟨64, [2 ^ 62]⟩ 63 = .oobRead := by
  decide

/-- Claim C5, settled against the code: the claim asserts the cursor is
equivalent to the stateless scan on every bitset, but on the capacity-0
bitset `bitset_next_set_bit` returns `-1` immediately while the first
`bitset_iter_next` enters its loop (`-1 < 0`) and dereferences word 0 of
the zero-word allocation (an out-of-bounds read). -/
theorem c5_cursor_not_equivalent_to_stateless_scan :
    bitset_next_set_bit (bitset_init 0) 0 = .exhausted ∧
    (bitset_iter_next (bitset_init 0).chunks (bitset_iter_begin (bitset_init 0))).1
      = .oobRead := by
  decide

/-- Claim C6, settled against the code: the claim asserts
`bitset_next_set_bit bs k` returns "none" whenever the ascending
enumeration has no element at or beyond `k`, but on the capacity-64
bitset with only bit 0 set, the scan from `k = 62` finds no bit, rolls
over at index 64 and dereferences the word one past the allocation
instead of returning `-1`. -/
theorem c6_restart_equivalence_fails_at_missing_successor :
    (specSetBits ⟨64, [1]⟩).filter (fun i => decide (62 ≤ i)) = [] ∧
    bitset_next_set_bit ⟨64, [1]⟩ 62 = .oobRead := by
  decide

/-- Claim C9, settled against the code: construction at capacity 0 does
allocate zero words, but the claim's other two parts fail: a negative
index is not flagged as `indexError` (the bounds check only tests
`index >= capacity`), and the first cursor advance does read storage —
it dereferences word 0 of the empty allocation instead of returning
"none" without any read. -/
theorem c9_capacity_zero_iterator_reads_storage :
    (bitset_init 0).chunks = [] ∧
    bitset_get (bitset_init 0) (-1) = .ub ∧
    (bitset_iter_next (bitset_init 0).chunks (bitset_iter_begin (bitset_init 0))).1
      = .oobRead := by
  decide

/-- Sanity anchor (spec scenario 1): capacity 10 with bits 0, 3, 9 set
(0x209) enumerates to exactly 0, 3, 9 and then -1 under the stateless
scan, matching the specification-side enumeration; a restart at 4 yields
9 and a restart at 10 yields -1. -/
theorem scan_enumeration_example_capacity_ten :
    specSetBits ⟨10, [0x209]⟩ = [0, 3, 9] ∧
    scanTrace ⟨10, [0x209]⟩ 20 0 = [.found 0, .found 3, .found 9, .exhausted] ∧
    bitset_next_set_bit ⟨10, [0x209]⟩ 4 = .found 9 ∧
    bitset_next_set_bit ⟨10, [0x209]⟩ 10 = .exhausted := by
  decide

/-- Sanity anchor (spec scenario 1, cursor form): the cursor produces the
same sequence 0, 3, 9, -1 on the capacity-10 bitset. -/
theorem cursor_enumeration_example_capacity_ten :
    iterTrace [0x209] 20 (bitset_iter_begin ⟨10, [0x209]⟩)
      = [.found 0, .found 3, .found 9, .exhausted] := by
  decide

/-- Sanity anchor (spec scenario 3): capacity 65 with only bit 64 set
enumerates to exactly 64 and then -1 under both algorithms, exercising
the word boundary at a capacity that is not a multiple of 64. -/
theorem enumeration_example_capacity_sixty_five :
    scanTrace ⟨65, [0, 1]⟩ 5 0 = [.found 64, .exhausted] ∧
    iterTrace [0, 1] 5 (bitset_iter_begin ⟨65, [0, 1]⟩) = [.found 64, .exhausted] := by
  decide

/-- Sanity anchor (spec scenario 5): on capacity 5, setting all five bits
and clearing bit 2 leaves the word 0x1B, which enumerates to 0, 1, 3, 4
and then -1 under both algorithms. -/
theorem enumeration_example_after_clear :
    bitset_clear ⟨5, [0x1F]⟩ 2 = .ok ⟨5, [0x1B]⟩ ∧
    scanTrace ⟨5, [0x1B]⟩ 9 0 = [.found 0, .found 1, .found 3, .found 4, .exhausted] ∧
    iterTrace [0x1B] 9 (bitset_iter_begin ⟨5, [0x1B]⟩)
      = [.found 0, .found 1, .found 3, .found 4, .exhausted] := by
  decide

/-- Sanity anchor: a capacity-63 bitset with no bits set enumerates to the
empty sequence cleanly under both algorithms (the mask never overflows
past the top of the only word before the index reaches the capacity). -/
theorem enumeration_example_empty_sixty_three :
    scanTrace ⟨63, [0]⟩ 3 0 = [.exhausted] ∧
    iterTrace [0] 3 (bitset_iter_begin ⟨63, [0]⟩) = [.exhausted] := by
  decide
